import Mathlib

/-!
Shallow embedding of the copy-on-write / whiteout core of unionfs-fuse
(`src/general.c`, `src/branch_ops.h`, the cow / cow-utils / branch-ops
translation units).

Paths are lists of characters, exactly the NUL-free byte strings the C
code manipulates.  A branch's contents are an association list from
resolved component lists (`Key`) to file types; the branch root always
exists as a directory.  Branch-relative syscalls are modelled by lookups
and inserts on that map.  Every stateful modelled function additionally
returns the list of syscall events it performed, so that statements about
"no I/O", "no mkdir performed" or "which branch ordinals are probed" are
expressible.

Idealisations (uniform for the whole file): path resolution follows the
`*at`-family backend (keys are component lists, `.` components and
repeated `/` are ignored, the branch root `[]` always exists as a
directory); data contents and modes are not part of the branch maps (the
mode/ownership arithmetic of `setfile` is modelled bit-precisely by a
dedicated definition below); metadata syscalls on an existing object
succeed; the fixed-size buffer copies of the C code (`strcpy`,
`strncpy` with truncation at `PATHLEN_MAX - 1`) are modelled as exact
copies, the bounded path *builder* being modelled separately by
`va_build_path`.
-/

namespace Unionfs

abbrev Path := List Char
abbrev Comp := List Char
abbrev Key := List Comp

/-- The file-type kind of an object, as distinguished by `st_mode & S_IFMT`. -/
inductive FType where
  | dir
  | file
  | fifo
  | blk
  | chr
  | sock
  | symlink (target : Path)
deriving DecidableEq, Repr

abbrev BMap := List (Key × FType)

/-- The process-wide configuration and branch contents: `uopt.cow_enabled`,
`uopt.nbranches`, and one content map per branch ordinal. -/
structure St where
  cow_enabled : Bool
  nbranches : Nat
  maps : List BMap
deriving DecidableEq, Repr

/-- Syscall events, recorded in program order by every modelled operation. -/
inductive Ev where
  | statE (b : Nat) (p : Path)
  | lstatE (b : Nat) (p : Path)
  | mkdirE (b : Nat) (p : Path)
  | utimensE (b : Nat) (p : Path)
  | chownE (b : Nat) (p : Path)
  | chmodE (b : Nat) (p : Path)
  | openE (b : Nat) (p : Path) (creat : Bool)
  | writeE (b : Nat) (p : Path)
  | readlinkE (b : Nat) (p : Path)
  | symlinkE (b : Nat) (p : Path)
  | mkfifoE (b : Nat) (p : Path)
  | mknodE (b : Nat) (p : Path)
  | opendirE (b : Nat) (p : Path)
  | unlinkE (b : Nat) (p : Path)
  | rmdirE (b : Nat) (p : Path)
deriving DecidableEq, Repr

/-- Metadata-only events: probes and directory/metadata maintenance, as
opposed to the events produced by the `copy_*` object-copy routines. -/
def Ev.isMeta : Ev → Bool
  | .statE _ _ | .lstatE _ _ | .mkdirE _ _ => true
  | .utimensE _ _ | .chownE _ _ | .chmodE _ _ => true
  | _ => false

def Ev.isMkdir : Ev → Bool
  | .mkdirE _ _ => true
  | _ => false

/-- Modelled from the spec: `PATHLEN_MAX` (defined in `unionfs.h`, which is
not among the provided sources); the spec gives 4096 as the default. -/
def PATHLEN_MAX : Nat := 4096

def ENAMETOOLONG : Int := 36

/-- Modelled from the spec: `METADIR` (defined in `unionfs.h`, absent from
the sources) — the per-branch metadata directory name, default `.unionfs`.
User paths carry a leading `/`, so the marker path is built as
`METADIR ++ path ++ HIDETAG`. -/
def metadirS : Path := ".unionfs".toList

/-- Modelled from the spec: `HIDETAG` (defined in `unionfs.h`, absent from
the sources) — the reserved hide-tag appended to the mirrored path.  The
tag is a plain suffix (no separator), so the marker's parent directory is
the mirrored path's parent, which is exactly what
`path_create_cutlast` ensures before the marker is created. -/
def hidetagS : Path := "__HIDDEN__".toList

/-- Raw `/`-separated segments of a byte string (no empty segments). -/
def rawComps : Path → Key
  | [] => []
  | c :: rest =>
    if c = '/' then rawComps rest
    else
      match rest with
      | [] => [[c]]
      | d :: _ =>
        if d = '/' then [c] :: rawComps rest
        else
          match rawComps rest with
          | [] => [[c]]
          | s :: ss => (c :: s) :: ss

/-- Resolved component list of a branch-relative path: empty and `.`
segments are dropped, mirroring pathname resolution by the `*at` family
relative to the branch root. -/
def comps (p : Path) : Key :=
  (rawComps p).filter (fun c => !(c == ['.']))

def bmap (st : St) (b : Nat) : BMap := st.maps.getD b []

def setBmap (st : St) (b : Nat) (m : BMap) : St :=
  { st with maps := st.maps.set b m }

/-- `lstat`/`stat` of a resolved key on a branch: the branch root always
exists as a directory; otherwise the object must be recorded in the map.
(Symlinks are not traversed during resolution, so `stat` and `lstat`
coincide at this level.) -/
def statT (b : Nat) (k : Key) (st : St) : Option FType :=
  if k = [] then some .dir else (bmap st b).lookup k

def insertK (st : St) (b : Nat) (k : Key) (t : FType) : St :=
  setBmap st b ((k, t) :: bmap st b)

def removeK (st : St) (b : Nat) (k : Key) : St :=
  setBmap st b ((bmap st b).filter (fun kv => !(kv.1 == k)))

/-- `mkdir`: fails if the target exists, its parent is not a directory, or
the branch ordinal has no handle (`b` out of range). -/
def mkdirT (b : Nat) (k : Key) (st : St) : Option St :=
  if k = [] then none
  else if (statT b k st).isSome then none
  else if statT b k.dropLast st = some .dir ∧ b < st.maps.length then
    some (insertK st b k .dir)
  else none

/-- `open` with `O_CREAT|O_WRONLY` (with or without `O_TRUNC`): an existing
directory cannot be opened for writing; an existing non-directory is
opened in place; otherwise the file is created under an existing parent
directory. -/
def openCreatT (b : Nat) (k : Key) (st : St) : Option St :=
  match statT b k st with
  | some .dir => none
  | some _ => some st
  | none =>
    if statT b k.dropLast st = some .dir ∧ b < st.maps.length then
      some (insertK st b k .file)
    else none

/-- `symlink`: target slot must be free and the parent must be a directory. -/
def symlinkT (b : Nat) (k : Key) (tgt : Path) (st : St) : Option St :=
  if (statT b k st).isSome then none
  else if statT b k.dropLast st = some .dir ∧ b < st.maps.length then
    some (insertK st b k (.symlink tgt))
  else none

/-- `mknod` / `mkfifo`: create a fresh node of the given type. -/
def mknodT (b : Nat) (k : Key) (t : FType) (st : St) : Option St :=
  if (statT b k st).isSome then none
  else if statT b k.dropLast st = some .dir ∧ b < st.maps.length then
    some (insertK st b k t)
  else none

end Unionfs

namespace Unionfs

def isSl (c : Char) : Bool := c == '/'

def notSl (c : Char) : Bool := !(c == '/')

theorem length_dropWhile_le {α : Type} (p : α → Bool) (l : List α) :
    (l.dropWhile p).length ≤ l.length := by
  induction l with
  | nil => simp [List.dropWhile]
  | cons x t ih =>
    by_cases h : p x
    · rw [List.dropWhile_cons_of_pos h]; exact Nat.le_succ_of_le ih
    · rw [List.dropWhile_cons_of_neg h]

theorem dropdrop_lt {l r2 : Path} {c : Char}
    (h : List.dropWhile isSl (List.dropWhile notSl l) = c :: r2) :
    (c :: r2).length < l.length := by
  induction l with
  | nil => simp [List.dropWhile] at h
  | cons x t ih =>
    by_cases hx : notSl x
    · rw [List.dropWhile_cons_of_pos hx] at h
      exact Nat.lt_succ_of_lt (ih h)
    · rw [List.dropWhile_cons_of_neg hx] at h
      have hx' : isSl x = true := by
        simp only [notSl, Bool.not_eq_true'] at hx
        simpa [isSl] using hx
      rw [List.dropWhile_cons_of_pos hx'] at h
      have hle := length_dropWhile_le isSl t
      rw [h] at hle
      exact Nat.lt_succ_of_le hle

/-- The prefix walk of `path_hidden` / `path_create` (general.c, cow.c):
starting after the leading slashes, repeatedly extend the tested prefix by
one path component.  `consumed` is the part of the buffer already walked
over; the returned list contains the successive prefixes, in test order.
The recursion is bounded by a character budget so that it is structural;
`rest.length` is always a sufficient budget (`wpGoF_fuel` below). -/
def wpGoF : Nat → Path → Path → List Path
  | 0, consumed, rest => [consumed ++ rest.takeWhile notSl]
  | Nat.succ n, consumed, rest =>
    let pref := consumed ++ rest.takeWhile notSl
    match List.dropWhile isSl (rest.dropWhile notSl) with
    | [] => [pref]
    | c :: r2 => pref :: wpGoF n (pref ++ (rest.dropWhile notSl).takeWhile isSl) (c :: r2)

def wpGo (consumed rest : Path) : List Path := wpGoF rest.length consumed rest

theorem wpGoF_fuel : ∀ (n m : Nat) (consumed rest : Path),
    rest.length ≤ n → rest.length ≤ m →
    wpGoF n consumed rest = wpGoF m consumed rest := by
  intro n
  induction n with
  | zero =>
    intro m consumed rest hn _
    have hrest : rest = [] := List.eq_nil_of_length_eq_zero (Nat.le_zero.mp hn)
    subst hrest
    cases m with
    | zero => rfl
    | succ m => simp [wpGoF]
  | succ n ih =>
    intro m consumed rest hn hm
    cases m with
    | zero =>
      have hrest : rest = [] := List.eq_nil_of_length_eq_zero (Nat.le_zero.mp hm)
      subst hrest
      simp [wpGoF]
    | succ m =>
      cases h : List.dropWhile isSl (rest.dropWhile notSl) with
      | nil => simp [wpGoF, h]
      | cons c r2 =>
        have hlt := dropdrop_lt h
        simp only [wpGoF, h]
        congr 1
        apply ih
        · omega
        · omega

/-- The list of prefixes tested by the do/while walk over a path buffer. -/
def walkPrefixes (p : Path) : List Path :=
  wpGo (p.takeWhile isSl) (p.dropWhile isSl)

def metaStr (p : Path) : Path := metadirS ++ p ++ hidetagS

/-- `filedir_hidden` (general.c): does a whiteout marker for `p` exist on
the branch?  (The spec calls this query `is_hidden`.) -/
def filedir_hidden (p : Path) (branch : Nat) (st : St) : Bool :=
  st.cow_enabled && (statT branch (comps (metaStr p)) st).isSome

def phGo : List Path → Nat → St → Bool × List Ev
  | [], _, _ => (false, [])
  | q :: qs, b, st =>
    if filedir_hidden q b st then (true, [Ev.lstatE b (metaStr q)])
    else
      let r := phGo qs b st
      (r.1, Ev.lstatE b (metaStr q) :: r.2)

/-- `path_hidden` (general.c) with its event trace: with COW disabled it
answers `false` immediately; otherwise it tests every component prefix of
`p` until the first whiteout hit. -/
def pathHiddenE (p : Path) (branch : Nat) (st : St) : Bool × List Ev :=
  if st.cow_enabled then phGo (walkPrefixes p) branch st else (false, [])

def path_hidden (p : Path) (branch : Nat) (st : St) : Bool :=
  (pathHiddenE p branch st).1

/-- Branch-map level model of `setfile` (cow_utils.c): apply utimens,
chown, chmod to an existing object.  Metadata values are not part of the
branch maps, so success is determined by existence; the mode/EPERM
arithmetic of `setfile` is modelled bit-precisely by `setfile_bits`. -/
def setfile (branch : Nat) (p : Path) (st : St) : Int × List Ev :=
  ((if (statT branch (comps p) st).isSome then (0 : Int) else 1),
   [Ev.utimensE branch p, Ev.chownE branch p, Ev.chmodE branch p])

/-- `do_create` (cow.c): create one directory of the chain on the rw
branch.  In the `nbranch_ro == nbranch_rw` special case the mode is fixed
and no metadata is transferred. -/
def do_create (p : Path) (nbranch_ro nbranch_rw : Nat) (st : St) : Int × St × List Ev :=
  if (statT nbranch_rw (comps p) st).isSome then (0, st, [Ev.statE nbranch_rw p])
  else if nbranch_ro = nbranch_rw then
    match mkdirT nbranch_rw (comps p) st with
    | some st1 => (0, st1, [Ev.statE nbranch_rw p, Ev.mkdirE nbranch_rw p])
    | none => (1, st, [Ev.statE nbranch_rw p, Ev.mkdirE nbranch_rw p])
  else if (statT nbranch_ro (comps p) st).isSome then
    match mkdirT nbranch_rw (comps p) st with
    | some st1 =>
      let sf := setfile nbranch_rw p st1
      (if sf.1 = 0 then 0 else 1, st1,
        [Ev.statE nbranch_rw p, Ev.statE nbranch_ro p, Ev.mkdirE nbranch_rw p] ++ sf.2)
    | none => (1, st, [Ev.statE nbranch_rw p, Ev.statE nbranch_ro p, Ev.mkdirE nbranch_rw p])
  else (1, st, [Ev.statE nbranch_rw p, Ev.statE nbranch_ro p])

/-- The do/while loop of `path_create`: run `do_create` on each prefix in
order, aborting on the first failure. -/
def pcWalk : List Path → Nat → Nat → St → Int × St × List Ev
  | [], _, _, st => (0, st, [])
  | q :: qs, ro, rw, st =>
    let t := do_create q ro rw st
    if t.1 = 0 then
      let t2 := pcWalk qs ro rw t.2.1
      (t2.1, t2.2.1, t.2.2 ++ t2.2.2)
    else t

/-- `path_create` (cow.c): the spec's `create_path_chain`. -/
def path_create (p : Path) (nbranch_ro nbranch_rw : Nat) (st : St) : Int × St × List Ev :=
  if !st.cow_enabled then (0, st, [])
  else if (statT nbranch_rw (comps p) st).isSome then (0, st, [Ev.statE nbranch_rw p])
  else
    let r := pcWalk (walkPrefixes p) nbranch_ro nbranch_rw st
    (r.1, r.2.1, Ev.statE nbranch_rw p :: r.2.2)

/-- Modelled from the spec: `u_dirname` (string.c, absent from the
sources) — "compute the dirname of `path`": the string truncated at its
last `/` (a slash-free name is returned unchanged; `"/x"` yields the
empty string, which resolves to the branch root).  The allocation-failure
branch (`ENOMEM`) is not modelled. -/
def u_dirname (p : Path) : Path :=
  match List.dropWhile notSl p.reverse with
  | [] => p
  | _ :: rest => rest.reverse

/-- `path_create_cutlast` (cow.c). -/
def path_create_cutlast (p : Path) (nbranch_ro nbranch_rw : Nat) (st : St) : Int × St × List Ev :=
  path_create (u_dirname p) nbranch_ro nbranch_rw st

def goVB : Int → Path → List Path → Int × Path
  | _, acc, [] => (0, acc)
  | space, acc, s :: rest =>
    let space' := space - s.length
    if space' ≤ 0 then (-ENAMETOOLONG, acc) else goVB space' (acc ++ s) rest

/-- `va_build_path` (branch_ops.c): `pre` is the branch-root prefix copied
before the loop in the prefix backend (`[]` in the `*at` backend), and
`parts` is the NULL-terminated argument list.  The running `space` check
`space <= 0` reserves one byte for the terminator. -/
def va_build_path (space : Int) (pre : Path) (parts : List Path) : Int × Path :=
  goVB (space - pre.length) pre parts

/-- Modelled from the spec: `build_path` (string.c, absent from the
sources) — the `BUILD_PATH` wrapper runs the same bounded concatenation
loop as `va_build_path`, without a branch prefix. -/
def build_path (maxLen : Int) (parts : List Path) : Int × Path :=
  va_build_path maxLen [] parts

inductive Whiteout where
  | WHITEOUT_FILE
  | WHITEOUT_DIR
deriving DecidableEq, Repr

/-- `do_create_whiteout` (general.c): build the metadata path, make sure
its parent chain exists on the rw branch (result discarded, as in the
source), then create the marker file or directory. -/
def do_create_whiteout (p : Path) (branch_rw : Nat) (mode : Whiteout) (st : St) :
    Int × St × List Ev :=
  let b := build_path PATHLEN_MAX [metadirS, p]
  if b.1 ≠ 0 then (-1, st, [])
  else
    let metapath := b.2
    let t1 := path_create_cutlast metapath branch_rw branch_rw st
    match mode with
    | .WHITEOUT_FILE =>
      match openCreatT branch_rw (comps (metapath ++ hidetagS)) t1.2.1 with
      | some st2 => (0, st2, t1.2.2 ++ [Ev.openE branch_rw (metapath ++ hidetagS) true])
      | none => (-1, t1.2.1, t1.2.2 ++ [Ev.openE branch_rw (metapath ++ hidetagS) true])
    | .WHITEOUT_DIR =>
      match mkdirT branch_rw (comps (metapath ++ hidetagS)) t1.2.1 with
      | some st2 => (0, st2, t1.2.2 ++ [Ev.mkdirE branch_rw (metapath ++ hidetagS)])
      | none => (-1, t1.2.1, t1.2.2 ++ [Ev.mkdirE branch_rw (metapath ++ hidetagS)])

/-- `hide_file` (general.c). -/
def hide_file (p : Path) (branch_rw : Nat) (st : St) : Int × St × List Ev :=
  do_create_whiteout p branch_rw .WHITEOUT_FILE st

/-- `hide_dir` (general.c). -/
def hide_dir (p : Path) (branch_rw : Nat) (st : St) : Int × St × List Ev :=
  do_create_whiteout p branch_rw .WHITEOUT_DIR st

/-- `filetype_t` (general.h). -/
inductive Filetype where
  | NOT_EXISTING
  | IS_FILE
  | IS_DIR
deriving DecidableEq, Repr

/-- `path_is_dir` (general.c): the vararg path components are
concatenated and the result is `lstat`ed on the branch.  (In the C code a
builder failure returns `-ENAMETOOLONG`, which is not `-1`, and the
uninitialised stat buffer is then read — undefined behaviour that is
outside this model.) -/
def path_is_dir (branch : Nat) (parts : List Path) (st : St) : Filetype :=
  match statT branch (comps parts.flatten) st with
  | none => .NOT_EXISTING
  | some .dir => .IS_DIR
  | some _ => .IS_FILE

/-- `remove_hidden` (general.c): probe branch ordinals `0..maxbranch`
(with `maxbranch == -1` replaced by `uopt.nbranches`) for a whiteout of
`p` and remove what is found, best-effort. -/
def remove_hidden (p : Path) (maxbranch : Int) (st : St) : Int × St × List Ev :=
  if !st.cow_enabled then (0, st, [])
  else
    let mb : Int := if maxbranch = -1 then (st.nbranches : Int) else maxbranch
    let ords : List Nat := if mb < 0 then [] else List.range (mb.toNat + 1)
    let r := ords.foldl
      (fun (acc : St × List Ev) i =>
        let q := metaStr p
        match path_is_dir i [metadirS, p, hidetagS] acc.1 with
        | .IS_FILE => (removeK acc.1 i (comps q), acc.2 ++ [Ev.lstatE i q, Ev.unlinkE i q])
        | .IS_DIR => (removeK acc.1 i (comps q), acc.2 ++ [Ev.lstatE i q, Ev.rmdirE i q])
        | .NOT_EXISTING => (acc.1, acc.2 ++ [Ev.lstatE i q]))
      (st, [])
    (0, r.1, r.2)

/-- The branch ordinals probed (lstat'ed) by an event trace. -/
def probedBranches (evs : List Ev) : List Nat :=
  evs.filterMap (fun e => match e with | .lstatE b _ => some b | _ => none)

end Unionfs

namespace Unionfs

/-- `copy_file` (cow_utils.c): open the source read-only, open/create the
destination for writing, transfer the data, then apply `setfile`.  Data
contents are not part of the branch maps, so the transfer itself always
succeeds once both descriptors are open. -/
def copy_file (p : Path) (ro rw : Nat) (st : St) : Int × St × List Ev :=
  if (statT ro (comps p) st).isNone then (1, st, [Ev.openE ro p false])
  else
    match openCreatT rw (comps p) st with
    | none => (1, st, [Ev.openE ro p false, Ev.openE rw p true])
    | some st1 =>
      let sf := setfile rw p st1
      (sf.1, st1, [Ev.openE ro p false, Ev.openE rw p true, Ev.writeE rw p] ++ sf.2)

/-- `copy_link` (cow_utils.c): read the target, recreate the symlink, then
`setlink` (lchown only, which succeeds on the just-created link). -/
def copy_link (p : Path) (ro rw : Nat) (st : St) : Int × St × List Ev :=
  match statT ro (comps p) st with
  | some (.symlink tgt) =>
    match symlinkT rw (comps p) tgt st with
    | none => (1, st, [Ev.readlinkE ro p, Ev.symlinkE rw p])
    | some st1 => (0, st1, [Ev.readlinkE ro p, Ev.symlinkE rw p, Ev.chownE rw p])
  | _ => (1, st, [Ev.readlinkE ro p])

/-- `copy_fifo` (cow_utils.c). -/
def copy_fifo (p : Path) (ro rw : Nat) (st : St) : Int × St × List Ev :=
  match mknodT rw (comps p) .fifo st with
  | none => (1, st, [Ev.mkfifoE rw p])
  | some st1 =>
    let sf := setfile rw p st1
    (sf.1, st1, [Ev.mkfifoE rw p] ++ sf.2)

/-- `copy_special` (cow_utils.c): recreate a block or character device
node (`t` is the source's device kind), then `setfile`. -/
def copy_special (p : Path) (t : FType) (ro rw : Nat) (st : St) : Int × St × List Ev :=
  match mknodT rw (comps p) t st with
  | none => (1, st, [Ev.mknodE rw p])
  | some st1 =>
    let sf := setfile rw p st1
    (sf.1, st1, [Ev.mknodE rw p] ++ sf.2)

/-- Names of the directory entries below `k`, in map order (`readdir`). -/
def childNames (m : BMap) (k : Key) : List Comp :=
  m.filterMap (fun kv => if kv.1.dropLast = k ∧ kv.1 ≠ [] then kv.1.getLast? else none)

/-- `opendir`/`readdir` on a branch: the entry list of a directory. -/
def opendirT (b : Nat) (k : Key) (st : St) : Option (List Comp) :=
  if statT b k st = some .dir then some (childNames (bmap st b) k) else none

inductive Job where
  | one (p : Path)
  | dirRest (base : Path) (names : List Comp)

/-- Combined recursion for `cow_cp` / `copy_directory` (cow.c).  The two C
functions are mutually recursive through directory contents; here the
directory-entry loop is defunctionalised as a `Job` and the recursion is
bounded by `fuel` (every recursive call decreases it; no claim depends on
fuel exhaustion, whose result is the generic error `1`).  As in the
source, the result of `path_create_cutlast` is discarded, and the
`lstat` of the source decides the type dispatch. -/
def cowRun : Nat → Job → Nat → Nat → St → Int × St × List Ev
  | 0, _, _, _, st => (1, st, [])
  | Nat.succ fuel, .one p, branch_ro, branch_rw, st =>
    let t1 := path_create_cutlast p branch_ro branch_rw st
    let st1 := t1.2.1
    let rest : Int × St × List Ev :=
      match statT branch_ro (comps p) st1 with
      | none => (-1, st1, [])
      | some t =>
        match t with
        | .symlink _ => copy_link p branch_ro branch_rw st1
        | .dir =>
          -- copy_directory: create the directory itself, then its entries
          let t2 := path_create p branch_ro branch_rw st1
          if t2.1 ≠ 0 then t2
          else
            match opendirT branch_ro (comps p) t2.2.1 with
            | none => (1, t2.2.1, t2.2.2 ++ [Ev.opendirE branch_ro p])
            | some names =>
              let t3 := cowRun fuel (.dirRest p names) branch_ro branch_rw t2.2.1
              (t3.1, t3.2.1, t2.2.2 ++ [Ev.opendirE branch_ro p] ++ t3.2.2)
        | .blk => copy_special p .blk branch_ro branch_rw st1
        | .chr => copy_special p .chr branch_ro branch_rw st1
        | .fifo => copy_fifo p branch_ro branch_rw st1
        | .sock => (1, st1, [])
        | .file => copy_file p branch_ro branch_rw st1
    (rest.1, rest.2.1, t1.2.2 ++ Ev.lstatE branch_ro p :: rest.2.2)
  | Nat.succ _, .dirRest _ [], _, _, st => (0, st, [])
  | Nat.succ fuel, .dirRest base (c :: cs), branch_ro, branch_rw, st =>
    if PATHLEN_MAX ≤ base.length + 1 + c.length then (1, st, [])
    else
      let t1 := cowRun fuel (.one (base ++ '/' :: c)) branch_ro branch_rw st
      if t1.1 ≠ 0 then t1
      else
        let t2 := cowRun fuel (.dirRest base cs) branch_ro branch_rw t1.2.1
        (t2.1, t2.2.1, t1.2.2 ++ t2.2.2)

/-- `cow_cp` (cow.c): the spec's `promote`. -/
def cow_cp (fuel : Nat) (p : Path) (branch_ro branch_rw : Nat) (st : St) : Int × St × List Ev :=
  cowRun fuel (.one p) branch_ro branch_rw st

inductive ChownOutcome where
  | ok
  | epermFail
  | otherFail
deriving DecidableEq, Repr

/-- Bit-precise model of the mode arithmetic and result value of `setfile`
(cow_utils.c).  The outcomes of the underlying syscalls are parameters
(`utimensOk`, `ch`, `chmodOk`); the first component of the result is the
mode passed to `chmod`, the second is `setfile`'s return value.  The C
`&= ~(S_ISTXT|S_ISUID|S_ISGID)` acts on a mode already masked to the low
twelve bits (`S_ISUID|S_ISGID|S_IRWXU|S_IRWXG|S_IRWXO`), where it equals
`&&& 0o777`; on any `chown` failure the set-id and sticky bits are
dropped, but only a non-`EPERM` failure also flips the return value. -/
def setfile_bits (m : Nat) (utimensOk : Bool) (ch : ChownOutcome) (chmodOk : Bool) : Nat × Int :=
  let m1 := m &&& 0o7777
  let r1 : Int := if utimensOk then 0 else 1
  let mr : Nat × Int :=
    match ch with
    | .ok => (m1, r1)
    | .epermFail => (m1 &&& 0o777, r1)
    | .otherFail => (m1 &&& 0o777, 1)
  let r3 : Int := if chmodOk then mr.2 else 1
  (mr.1, r3)

end Unionfs
namespace Unionfs

/-! ### Structure of component splitting and of the prefix walk -/

/-- Interleave components with single `/` separators (no leading slash). -/
def joinRest : List Comp → Path
  | [] => []
  | [c] => c
  | c :: d :: cs => c ++ '/' :: joinRest (d :: cs)

/-- The normalised absolute path `/c1/.../cn` over a component list. -/
def mkPath (cs : List Comp) : Path := '/' :: joinRest cs

/-- A well-formed path component: non-empty, slash-free and not `.`. -/
def WfComp (c : Comp) : Prop := c ≠ [] ∧ ('/' : Char) ∉ c ∧ c ≠ ['.']

instance : DecidablePred WfComp := fun c => by
  unfold WfComp; infer_instance

theorem takeWhile_all_append {p : Char → Bool} {l : Path} (r : Path)
    (h : ∀ x ∈ l, p x = true) : (l ++ r).takeWhile p = l ++ r.takeWhile p := by
  induction l with
  | nil => simp
  | cons a t ih =>
    have ha : p a = true := h a (by simp)
    simp only [List.cons_append, List.takeWhile_cons, ha, if_true]
    rw [ih (fun x hx => h x (by simp [hx]))]

theorem dropWhile_all_append {p : Char → Bool} {l : Path} (r : Path)
    (h : ∀ x ∈ l, p x = true) : (l ++ r).dropWhile p = r.dropWhile p := by
  induction l with
  | nil => simp
  | cons a t ih =>
    have ha : p a = true := h a (by simp)
    simp only [List.cons_append, List.dropWhile_cons, ha, if_true]
    exact ih (fun x hx => h x (by simp [hx]))

theorem rawComps_all_slash {s : Path} (h : ∀ x ∈ s, x = '/') : rawComps s = [] := by
  induction s with
  | nil => rfl
  | cons a t ih =>
    have ha : a = '/' := h a (by simp)
    simp only [rawComps, ha, if_true]
    exact ih (fun x hx => h x (by simp [hx]))

theorem rawComps_ne_nil {c : Char} {t : Path} (hc : c ≠ '/') : rawComps (c :: t) ≠ [] := by
  simp only [rawComps, hc, if_false]
  cases t with
  | nil => simp
  | cons d t' =>
    by_cases hd : d = '/'
    · simp [hd]
    · simp only [hd, if_false]
      cases h : rawComps (d :: t') <;> simp

theorem rawComps_cons_slash (t : Path) : rawComps ('/' :: t) = rawComps t := by
  rw [rawComps.eq_def]
  simp

theorem rawComps_cons_cons_slash {a : Char} (ha : a ≠ '/') (t : Path) :
    rawComps (a :: '/' :: t) = [a] :: rawComps t := by
  rw [rawComps.eq_def]
  simp only [ha, if_false, if_true]
  rw [rawComps_cons_slash]

theorem rawComps_cons_cons {a d : Char} (t : Path) (ha : a ≠ '/') (hd : d ≠ '/') :
    rawComps (a :: d :: t) =
      match rawComps (d :: t) with
      | [] => [[a]]
      | s :: ss => (a :: s) :: ss := by
  rw [rawComps.eq_def]
  simp only [ha, if_false, hd]

theorem rawComps_single {a : Char} (ha : a ≠ '/') : rawComps [a] = [[a]] := by
  rw [rawComps.eq_def]
  simp [ha]

theorem rawComps_append_slash (x y : Path) :
    rawComps (x ++ '/' :: y) = rawComps x ++ rawComps y := by
  induction x with
  | nil => simp [rawComps_cons_slash, rawComps]
  | cons a t ih =>
    by_cases ha : a = '/'
    · subst ha
      simp only [List.cons_append, rawComps_cons_slash]
      exact ih
    · cases t with
      | nil =>
        rw [show [a] ++ '/' :: y = a :: '/' :: y from rfl, rawComps_cons_cons_slash ha,
          rawComps_single ha]
        rfl
      | cons d t' =>
        by_cases hd : d = '/'
        · subst hd
          have h1 : (a :: '/' :: t') ++ '/' :: y = a :: '/' :: (t' ++ '/' :: y) := rfl
          rw [h1, rawComps_cons_cons_slash ha, rawComps_cons_cons_slash ha]
          have h2 : ('/' :: t') ++ '/' :: y = '/' :: (t' ++ '/' :: y) := rfl
          rw [h2, rawComps_cons_slash, rawComps_cons_slash] at ih
          rw [ih]
          rfl
        · obtain ⟨s, ss, hss⟩ : ∃ s ss, rawComps (d :: t') = s :: ss := by
            cases h : rawComps (d :: t') with
            | nil => exact absurd h (rawComps_ne_nil hd)
            | cons s ss => exact ⟨s, ss, rfl⟩
          have hL : rawComps (d :: (t' ++ '/' :: y)) = s :: (ss ++ rawComps y) := by
            have h2 : (d :: t') ++ '/' :: y = d :: (t' ++ '/' :: y) := rfl
            rw [h2] at ih
            rw [ih, hss]
            rfl
          have h1 : (a :: d :: t') ++ '/' :: y = a :: d :: (t' ++ '/' :: y) := rfl
          rw [h1, rawComps_cons_cons _ ha hd, rawComps_cons_cons _ ha hd, hL, hss]
          rfl

theorem rawComps_noslash {c : Comp} (h1 : c ≠ []) (h2 : ('/' : Char) ∉ c) :
    rawComps c = [c] := by
  induction c with
  | nil => exact absurd rfl h1
  | cons a t ih =>
    have ha : a ≠ '/' := fun h => h2 (by simp [h])
    cases t with
    | nil => exact rawComps_single ha
    | cons d t' =>
      have hd : d ≠ '/' := fun h => h2 (by simp [h])
      have ht := ih (by simp) (fun h => h2 (List.mem_cons_of_mem _ h))
      rw [rawComps_cons_cons _ ha hd, ht]

theorem comps_append_slash (x y : Path) : comps (x ++ '/' :: y) = comps x ++ comps y := by
  simp [comps, rawComps_append_slash, List.filter_append]

theorem comps_append_all_slash (x : Path) {s : Path} (h : ∀ c ∈ s, c = '/') :
    comps (x ++ s) = comps x := by
  cases s with
  | nil => simp
  | cons a s' =>
    have ha : a = '/' := h a (by simp)
    subst ha
    rw [comps_append_slash]
    have hs : rawComps s' = [] := rawComps_all_slash (fun x hx => h x (by simp [hx]))
    simp [comps, hs]

theorem comps_wfcomp {c : Comp} (h : WfComp c) : comps c = [c] := by
  obtain ⟨h1, h2, h3⟩ := h
  rw [comps, rawComps_noslash h1 h2]
  have hb : (c == ['.']) = false := by simpa using h3
  simp [List.filter, hb]

end Unionfs

namespace Unionfs

theorem wpGo_eq_single {consumed rest : Path}
    (h : List.dropWhile isSl (rest.dropWhile notSl) = []) :
    wpGo consumed rest = [consumed ++ rest.takeWhile notSl] := by
  unfold wpGo
  cases hn : rest.length with
  | zero => simp [wpGoF]
  | succ n => simp [wpGoF, h]

theorem wpGo_eq_cons {consumed rest : Path} {c : Char} {r2 : Path}
    (h : List.dropWhile isSl (rest.dropWhile notSl) = c :: r2) :
    wpGo consumed rest =
      (consumed ++ rest.takeWhile notSl) ::
        wpGo (consumed ++ rest.takeWhile notSl ++ (rest.dropWhile notSl).takeWhile isSl)
          (c :: r2) := by
  have hlt := dropdrop_lt h
  unfold wpGo
  cases hn : rest.length with
  | zero =>
    rw [hn] at hlt
    omega
  | succ n =>
    rw [hn] at hlt
    simp only [wpGoF, h]
    congr 1
    exact wpGoF_fuel n (c :: r2).length _ (c :: r2) (by omega) le_rfl

theorem wpGo_ne_nil (consumed rest : Path) : wpGo consumed rest ≠ [] := by
  cases h : List.dropWhile isSl (rest.dropWhile notSl) with
  | nil => rw [wpGo_eq_single h]; simp
  | cons c r2 => rw [wpGo_eq_cons h]; simp

/-- Every walk contains a prefix with the same resolved components as the
whole walked string (the last tested prefix, up to trailing slashes). -/
theorem wpGo_covers : ∀ (n : Nat) (consumed rest : Path), rest.length ≤ n →
    ∃ q ∈ wpGo consumed rest, comps q = comps (consumed ++ rest) := by
  intro n
  induction n with
  | zero =>
    intro consumed rest hn
    have hrest : rest = [] := List.eq_nil_of_length_eq_zero (Nat.le_zero.mp hn)
    subst hrest
    rw [wpGo_eq_single (by simp)]
    exact ⟨consumed ++ [].takeWhile notSl, by simp, by simp⟩
  | succ m ih =>
    intro consumed rest hn
    cases h : List.dropWhile isSl (rest.dropWhile notSl) with
    | nil =>
      rw [wpGo_eq_single h]
      refine ⟨consumed ++ rest.takeWhile notSl, by simp, ?_⟩
      have hall : ∀ x ∈ rest.dropWhile notSl, isSl x = true := List.dropWhile_eq_nil_iff.mp h
      have hall' : ∀ x ∈ rest.dropWhile notSl, x = '/' := by
        intro x hx
        have := hall x hx
        simpa [isSl] using this
      calc comps (consumed ++ rest.takeWhile notSl)
          = comps ((consumed ++ rest.takeWhile notSl) ++ rest.dropWhile notSl) :=
            (comps_append_all_slash _ hall').symm
        _ = comps (consumed ++ rest) := by
            rw [List.append_assoc, List.takeWhile_append_dropWhile]
    | cons c r2 =>
      rw [wpGo_eq_cons h]
      have hlt : (c :: r2).length < rest.length := dropdrop_lt h
      obtain ⟨q, hq, hcq⟩ :=
        ih (consumed ++ rest.takeWhile notSl ++ (rest.dropWhile notSl).takeWhile isSl)
          (c :: r2) (by omega)
      refine ⟨q, List.mem_cons_of_mem _ hq, ?_⟩
      rw [hcq]
      congr 1
      calc consumed ++ rest.takeWhile notSl ++ (rest.dropWhile notSl).takeWhile isSl ++ (c :: r2)
          = consumed ++ rest.takeWhile notSl ++
              ((rest.dropWhile notSl).takeWhile isSl ++ (rest.dropWhile notSl).dropWhile isSl) := by
            rw [h, List.append_assoc]
        _ = consumed ++ (rest.takeWhile notSl ++ rest.dropWhile notSl) := by
            rw [List.takeWhile_append_dropWhile, List.append_assoc]
        _ = consumed ++ rest := by rw [List.takeWhile_append_dropWhile]

theorem walkPrefixes_covers (p : Path) :
    ∃ q ∈ walkPrefixes p, comps q = comps p := by
  obtain ⟨q, hq, hc⟩ := wpGo_covers (p.dropWhile isSl).length (p.takeWhile isSl)
    (p.dropWhile isSl) le_rfl
  exact ⟨q, hq, by rwa [List.takeWhile_append_dropWhile] at hc⟩

/-- Head of a separator-joined non-empty well-formed component list is not
a slash. -/
theorem joinRest_head {d : Comp} (cs : List Comp) (hd : WfComp d) :
    ∃ e t, joinRest (d :: cs) = e :: t ∧ isSl e = false := by
  obtain ⟨e, d', hed⟩ : ∃ e d', d = e :: d' := by
    cases d with
    | nil => exact absurd rfl hd.1
    | cons e d' => exact ⟨e, d', rfl⟩
  have he : e ≠ '/' := by
    intro h
    exact hd.2.1 (by simp [hed, h])
  have hsl : isSl e = false := by simpa [isSl] using he
  cases cs with
  | nil => exact ⟨e, d', by simp [joinRest, hed], hsl⟩
  | cons x xs => exact ⟨e, d' ++ '/' :: joinRest (x :: xs), by simp [joinRest, hed], hsl⟩

/-- The walk over a normalised absolute path tests exactly the component
prefixes `/c1`, `/c1/c2`, …, in order. -/
theorem wpGo_join : ∀ (cs : List Comp), cs ≠ [] → (∀ c ∈ cs, WfComp c) →
    ∀ (consumed : Path),
    wpGo consumed (joinRest cs) =
      (List.range cs.length).map (fun k => consumed ++ joinRest (cs.take (k + 1))) := by
  intro cs
  induction cs with
  | nil => intro h; exact absurd rfl h
  | cons c cs ih =>
    intro _ hwf consumed
    have hc := hwf c (by simp)
    have hcall : ∀ x ∈ c, notSl x = true := by
      intro x hx
      have hx' : x ≠ '/' := fun he => hc.2.1 (he ▸ hx)
      simpa [notSl] using hx'
    cases cs with
    | nil =>
      have hdw : (joinRest [c]).dropWhile notSl = [] := by
        have : joinRest [c] = c := rfl
        rw [this, List.dropWhile_eq_nil_iff]
        exact hcall
      rw [wpGo_eq_single (by rw [hdw]; rfl)]
      have htw : (joinRest [c]).takeWhile notSl = c := by
        have : joinRest [c] = c := rfl
        rw [this, List.takeWhile_eq_self_iff]
        exact hcall
      rw [htw]
      simp [show List.range 1 = [0] from rfl, joinRest]
    | cons d cs' =>
      have hjr : joinRest (c :: d :: cs') = c ++ '/' :: joinRest (d :: cs') := rfl
      obtain ⟨e, t, het, hesl⟩ := joinRest_head cs' (hwf d (by simp))
      have htw : (joinRest (c :: d :: cs')).takeWhile notSl = c := by
        rw [hjr, takeWhile_all_append _ hcall, List.takeWhile_cons]
        simp [notSl]
      have hdw : (joinRest (c :: d :: cs')).dropWhile notSl = '/' :: joinRest (d :: cs') := by
        rw [hjr, dropWhile_all_append _ hcall, List.dropWhile_cons]
        simp [notSl]
      have hscrut : List.dropWhile isSl ((joinRest (c :: d :: cs')).dropWhile notSl)
          = joinRest (d :: cs') := by
        rw [hdw, List.dropWhile_cons]
        simp only [isSl, beq_self_eq_true, if_true]
        rw [het, List.dropWhile_cons, hesl]
        simp
      have hsl2 : ((joinRest (c :: d :: cs')).dropWhile notSl).takeWhile isSl = ['/'] := by
        rw [hdw, List.takeWhile_cons]
        simp only [isSl, beq_self_eq_true, if_true]
        rw [het, List.takeWhile_cons, hesl]
        simp
      rw [het] at hscrut
      rw [wpGo_eq_cons hscrut, ← het, htw, hsl2]
      rw [ih (by simp) (fun x hx => hwf x (by simp [hx])) (consumed ++ c ++ ['/'])]
      have hlen : (d :: cs').length + 1 = cs'.length + 1 + 1 := by simp
      rw [show (c :: d :: cs').length = (d :: cs').length + 1 by simp,
        List.range_succ_eq_map, List.map_cons, List.map_map]
      refine congrArg₂ List.cons ?_ ?_
      · simp [joinRest]
      · apply List.map_congr_left
        intro k hk
        simp only [Function.comp_apply]
        have htake : (c :: d :: cs').take (Nat.succ k + 1) = c :: ((d :: cs').take (k + 1)) := by
          rw [List.take_succ_cons]
        rw [htake]
        obtain ⟨x, xs, hx⟩ : ∃ x xs, (d :: cs').take (k + 1) = x :: xs :=
          ⟨d, cs'.take k, by rw [List.take_succ_cons]⟩
        rw [hx]
        have : joinRest (c :: x :: xs) = c ++ '/' :: joinRest (x :: xs) := rfl
        rw [this]
        simp

end Unionfs

namespace Unionfs

/-- On a normalised absolute path, the walk tests exactly the component
prefixes `/c1`, `/c1/c2`, …, `/c1/../cn`, in order. -/
theorem walkPrefixes_mkPath (cs : List Comp) (hcs : cs ≠ []) (hwf : ∀ c ∈ cs, WfComp c) :
    walkPrefixes (mkPath cs) =
      (List.range cs.length).map (fun k => mkPath (cs.take (k + 1))) := by
  obtain ⟨c, cs', rfl⟩ : ∃ c cs', cs = c :: cs' := by
    cases cs with
    | nil => exact absurd rfl hcs
    | cons c cs' => exact ⟨c, cs', rfl⟩
  obtain ⟨e, t, het, hesl⟩ := joinRest_head cs' (hwf c (by simp))
  have h1 : (mkPath (c :: cs')).takeWhile isSl = ['/'] := by
    rw [mkPath, List.takeWhile_cons]
    simp only [isSl, beq_self_eq_true, if_true]
    rw [het, List.takeWhile_cons, hesl]
    simp
  have h2 : (mkPath (c :: cs')).dropWhile isSl = joinRest (c :: cs') := by
    rw [mkPath, List.dropWhile_cons]
    simp only [isSl, beq_self_eq_true, if_true]
    rw [het, List.dropWhile_cons, hesl]
    simp
  rw [walkPrefixes, h1, h2, wpGo_join (c :: cs') (by simp) hwf ['/']]
  apply List.map_congr_left
  intro k _
  rfl

theorem phGo_fst (l : List Path) (b : Nat) (st : St) :
    (phGo l b st).1 = l.any (fun q => filedir_hidden q b st) := by
  induction l with
  | nil => simp [phGo]
  | cons q qs ih =>
    by_cases h : filedir_hidden q b st <;> simp [phGo, h, ih]

theorem path_hidden_any (p : Path) (b : Nat) (st : St) :
    path_hidden p b st
      = (st.cow_enabled && (walkPrefixes p).any (fun q => filedir_hidden q b st)) := by
  rw [path_hidden, pathHiddenE]
  cases hcow : st.cow_enabled with
  | false => simp
  | true => simp [phGo_fst]

end Unionfs

namespace Unionfs

/-- Concrete state for the C4 witness: COW enabled, one branch carrying a
whiteout marker for `/a`. -/
def stW4 : St := ⟨true, 1, [[(comps (metadirS ++ mkPath [['a']] ++ hidetagS), FType.file)]]⟩

/-- C4: for a normalised absolute path, `path_hidden(path, B)` is true iff
`is_hidden` (`filedir_hidden`) holds of some component prefix of the path,
the path itself included; in particular it is false when no component
prefix carries a whiteout marker on the branch. -/
theorem path_hidden_iff_prefix_hit (st : St) (cs : List Comp) (b : Nat)
    (hcs : cs ≠ []) (hwf : ∀ c ∈ cs, WfComp c) :
    path_hidden (mkPath cs) b st = true ↔
      ∃ k < cs.length, filedir_hidden (mkPath (cs.take (k + 1))) b st = true := by
  rw [path_hidden_any, walkPrefixes_mkPath cs hcs hwf]
  cases hcow : st.cow_enabled with
  | false =>
    simp only [Bool.false_and]
    constructor
    · intro h
      cases h
    · rintro ⟨k, _, h⟩
      simp [filedir_hidden, hcow] at h
  | true =>
    simp only [Bool.true_and, List.any_eq_true]
    constructor
    · rintro ⟨q, hq, h⟩
      obtain ⟨k, hk, rfl⟩ := List.mem_map.mp hq
      exact ⟨k, List.mem_range.mp hk, h⟩
    · rintro ⟨k, hk, h⟩
      exact ⟨_, List.mem_map.mpr ⟨k, List.mem_range.mpr hk, rfl⟩, h⟩

theorem path_hidden_iff_prefix_hit_witness :
    (([['a'], ['b']] : List Comp) ≠ [] ∧ ∀ c ∈ ([['a'], ['b']] : List Comp), WfComp c) ∧
    (path_hidden (mkPath [['a'], ['b']]) 0 stW4 = true ↔
      ∃ k < ([['a'], ['b']] : List Comp).length,
        filedir_hidden (mkPath ([['a'], ['b']].take (k + 1))) 0 stW4 = true) :=
  ⟨⟨by decide, by decide⟩,
    path_hidden_iff_prefix_hit stW4 [['a'], ['b']] 0 (by decide) (by decide)⟩

end Unionfs

namespace Unionfs

/-! ### The variadic path builder (C6) -/

theorem goVB_spec : ∀ (parts : List Path) (space : Int) (acc : Path), parts ≠ [] →
    (((goVB space acc parts).1 = -ENAMETOOLONG) ↔
        space ≤ ((parts.map List.length).sum : Int)) ∧
    (((parts.map List.length).sum : Int) < space →
        goVB space acc parts = (0, acc ++ parts.flatten)) := by
  intro parts
  induction parts with
  | nil => intro _ _ h; exact absurd rfl h
  | cons s rest ih =>
    intro space acc _
    have hsum : ((List.map List.length (s :: rest)).sum : Int)
        = (s.length : Int) + ((List.map List.length rest).sum : Int) := by
      push_cast [List.map_cons, List.sum_cons]
      ring
    have hnn : (0 : Int) ≤ ((List.map List.length rest).sum : Int) := by positivity
    by_cases hle : space - (s.length : Int) ≤ 0
    · have hgo : goVB space acc (s :: rest) = (-ENAMETOOLONG, acc) := by
        simp only [goVB, hle, if_true]
      refine ⟨?_, ?_⟩
      · rw [hgo]
        exact ⟨fun _ => by rw [hsum]; omega, fun _ => rfl⟩
      · intro h
        rw [hsum] at h
        omega
    · have hgo : goVB space acc (s :: rest) = goVB (space - s.length) (acc ++ s) rest := by
        simp only [goVB, hle, if_false]
      cases rest with
      | nil =>
        rw [hgo]
        refine ⟨?_, ?_⟩
        · simp only [goVB]
          constructor
          · intro h
            exact absurd h (by decide)
          · intro h
            rw [hsum] at h
            simp at h
            omega
        · intro _
          simp [goVB]
      | cons r rest' =>
        obtain ⟨ih1, ih2⟩ := ih (space - s.length) (acc ++ s) (by simp)
        rw [hgo]
        refine ⟨?_, ?_⟩
        · rw [ih1, hsum]
          omega
        · intro h
          rw [hsum] at h
          rw [ih2 (by omega)]
          simp

/-- C6: an operation built through the variadic path builder fails with
`ENAMETOOLONG` exactly when the branch-root prefix (in prefix mode, `[]`
in handle mode) plus the concatenated components plus the terminating NUL
exceed `PATHLEN_MAX`; equivalently, a constructed path of total content
length up to `PATHLEN_MAX - 1` succeeds and yields the concatenation. -/
theorem va_build_path_nametoolong (pre : Path) (parts : List Path)
    (hparts : parts ≠ []) (hpre : pre.length < PATHLEN_MAX) :
    (((va_build_path PATHLEN_MAX pre parts).1 = -ENAMETOOLONG) ↔
       PATHLEN_MAX < pre.length + (parts.map List.length).sum + 1) ∧
    (pre.length + (parts.map List.length).sum + 1 ≤ PATHLEN_MAX →
       va_build_path PATHLEN_MAX pre parts = (0, pre ++ parts.flatten)) := by
  obtain ⟨h1, h2⟩ := goVB_spec parts ((PATHLEN_MAX : Int) - pre.length) pre hparts
  constructor
  · rw [va_build_path, h1]
    constructor
    · intro h; omega
    · intro h; omega
  · intro h
    rw [va_build_path, h2 (by omega)]

theorem va_build_path_nametoolong_witness :
    (([['x']] : List Path) ≠ [] ∧ List.length ([] : Path) < PATHLEN_MAX) ∧
    ((((va_build_path PATHLEN_MAX [] [['x']]).1 = -ENAMETOOLONG) ↔
       PATHLEN_MAX < List.length ([] : Path) + (([['x']] : List Path).map List.length).sum + 1) ∧
     (List.length ([] : Path) + (([['x']] : List Path).map List.length).sum + 1 ≤ PATHLEN_MAX →
       va_build_path PATHLEN_MAX [] [['x']] = (0, [] ++ ([['x']] : List Path).flatten))) :=
  ⟨⟨by decide, by decide⟩, va_build_path_nametoolong [] [['x']] (by decide) (by decide)⟩

end Unionfs

namespace Unionfs

/-! ### setfile mode arithmetic (C8) -/

theorem land_mask_absorb (m : Nat) : m &&& 0o7777 &&& 0o777 = m &&& 0o777 := by
  rw [Nat.land_assoc]
  have h : (0o7777 : Nat) &&& 0o777 = 0o777 := by decide
  rw [h]

theorem land_rwx_disjoint (m : Nat) : (m &&& 0o777) &&& 0o7000 = 0 := by
  apply Nat.eq_of_testBit_eq
  intro i
  simp only [Nat.testBit_land, Nat.zero_testBit]
  rcases lt_or_ge i 9 with hi | hi
  · have h7 : (0o7000 : Nat).testBit i = false := by
      interval_cases i <;> decide
    simp [h7]
  · have h9 : (0o777 : Nat).testBit i = false := by
      apply Nat.testBit_eq_false_of_lt
      calc (0o777 : Nat) < 2 ^ 9 := by decide
        _ ≤ 2 ^ i := Nat.pow_le_pow_right (by decide) hi
    simp [h9]

/-- C8: when `chown` fails with `EPERM`, `setfile` drops the setuid,
setgid and sticky bits from the mode handed to the subsequent `chmod`
(the applied mode is exactly `mode & 0777`), and it still returns success
provided `utimens` and `chmod` succeed. -/
theorem setfile_chown_eperm (m : Nat) (u cm : Bool) :
    (setfile_bits m u .epermFail cm).1 = m &&& 0o777 ∧
    (setfile_bits m u .epermFail cm).1 &&& 0o7000 = 0 ∧
    (u = true → cm = true → (setfile_bits m u .epermFail cm).2 = 0) := by
  refine ⟨?_, ?_, ?_⟩
  · show m &&& 0o7777 &&& 0o777 = m &&& 0o777
    exact land_mask_absorb m
  · show m &&& 0o7777 &&& 0o777 &&& 0o7000 = 0
    rw [land_mask_absorb m]
    exact land_rwx_disjoint m
  · intro hu hcm
    simp [setfile_bits, hu, hcm]

theorem setfile_chown_eperm_witness :
    (true = true → true = true → (setfile_bits 0o4755 true .epermFail true).2 = 0) ∧
    (setfile_bits 0o4755 true .epermFail true).1 = 0o4755 &&& 0o777 :=
  ⟨(setfile_chown_eperm 0o4755 true true).2.2,
   (setfile_chown_eperm 0o4755 true true).1⟩

/-! ### path_is_dir classification (C10) -/

/-- C10: `path_is_dir` answers `NOT_EXISTING` exactly when the
branch-relative lstat of the concatenated components fails; on an
existing object it answers `IS_DIR` exactly for directories, and
`IS_FILE` for every other object — symlinks, fifos, devices and sockets
included. -/
theorem path_is_dir_classifies (st : St) (b : Nat) (parts : List Path) :
    (path_is_dir b parts st = .NOT_EXISTING ↔ statT b (comps parts.flatten) st = none) ∧
    (path_is_dir b parts st = .IS_DIR ↔ statT b (comps parts.flatten) st = some .dir) ∧
    (path_is_dir b parts st = .IS_FILE ↔
      ∃ t, statT b (comps parts.flatten) st = some t ∧ t ≠ FType.dir) := by
  rcases h : statT b (comps parts.flatten) st with _ | t
  · refine ⟨by simp [path_is_dir, h], by simp [path_is_dir, h], ?_⟩
    simp [path_is_dir, h]
  · cases t <;>
      refine ⟨by simp [path_is_dir, h], by simp [path_is_dir, h], ?_⟩ <;>
      simp [path_is_dir, h]

/-! ### remove_hidden loop bound (C3) -/

/-- State for the C3 failing input: COW enabled, a single configured
branch (ordinal 0 only). -/
def stC3 : St := ⟨true, 1, [[]]⟩

/-- C3 (failing input): with `maxbranch = -1` and `nbranches = 1`,
`remove_hidden` probes branch ordinals 0 and 1 — the loop `i <= maxbranch`
after `maxbranch = uopt.nbranches` runs one past the last configured
ordinal `nbranches - 1`, an out-of-bounds `uopt.branches[]` access in the
C code, contradicting the claim that only ordinals `0..nbranches-1` are
probed. -/
theorem remove_hidden_probes_out_of_range :
    probedBranches (remove_hidden "/f".toList (-1) stC3).2.2 = [0, 1] ∧
    stC3.nbranches = 1 := by
  constructor
  · rfl
  · rfl

end Unionfs

namespace Unionfs

/-! ### State-manipulation lemmas -/

theorem bmap_setBmap (st : St) (b' : Nat) (m : BMap) (b : Nat) :
    bmap (setBmap st b' m) b
      = if b' = b ∧ b' < st.maps.length then m else bmap st b := by
  simp only [bmap, setBmap, List.getD_eq_getElem?_getD, List.getElem?_set]
  by_cases h1 : b' = b
  · subst h1
    by_cases h2 : b' < st.maps.length
    · simp [h2]
    · simp [h2, List.getElem?_eq_none (Nat.le_of_not_lt h2), bmap,
        List.getD_eq_getElem?_getD]
  · simp [h1]

theorem statT_insertK_ne {st : St} {b' : Nat} {k' : Key} {t' : FType} (b : Nat) {k : Key}
    (hk : k ≠ k') : statT b k (insertK st b' k' t') = statT b k st := by
  unfold statT insertK
  by_cases h0 : k = []
  · simp [h0]
  · simp only [h0, if_false]
    rw [bmap_setBmap]
    split
    · next hcond =>
      rw [← hcond.1]
      have hb : (k == k') = false := beq_eq_false_iff_ne.mpr hk
      rw [List.lookup_cons]
      simp [hb]
    · rfl

theorem statT_insertK_isSome {st : St} {b' : Nat} {k' : Key} {t' : FType} {b : Nat} {k : Key}
    (h : (statT b k st).isSome) : (statT b k (insertK st b' k' t')).isSome := by
  by_cases hk : k = k'
  · subst hk
    unfold statT insertK at *
    by_cases h0 : k = []
    · simp [h0]
    · simp only [h0, if_false] at h ⊢
      rw [bmap_setBmap]
      split
      · rw [List.lookup_cons]
        simp
      · exact h
  · rw [statT_insertK_ne b hk]
    exact h

theorem statT_insertK_self {st : St} {b : Nat} {k : Key} {t : FType}
    (hb : b < st.maps.length) : (statT b k (insertK st b k t)).isSome := by
  unfold statT insertK
  by_cases h0 : k = []
  · simp [h0]
  · simp only [h0, if_false]
    rw [bmap_setBmap]
    simp only [hb, and_true, if_pos rfl, List.lookup_cons]
    simp

theorem insertK_cow (st : St) (b : Nat) (k : Key) (t : FType) :
    (insertK st b k t).cow_enabled = st.cow_enabled := rfl

theorem insertK_len (st : St) (b : Nat) (k : Key) (t : FType) :
    (insertK st b k t).maps.length = st.maps.length := by
  simp [insertK, setBmap]

theorem mkdirT_eq {b : Nat} {k : Key} {st st' : St} (h : mkdirT b k st = some st') :
    st' = insertK st b k .dir ∧ k ≠ [] ∧ b < st.maps.length := by
  unfold mkdirT at h
  split at h
  · cases h
  · split at h
    · cases h
    · split at h
      · next hc => exact ⟨(Option.some.inj h).symm, by assumption, hc.2⟩
      · cases h

theorem openCreatT_eq {b : Nat} {k : Key} {st st' : St} (h : openCreatT b k st = some st') :
    (st' = st ∧ (statT b k st).isSome) ∨ (st' = insertK st b k .file ∧ b < st.maps.length) := by
  unfold openCreatT at h
  split at h
  · cases h
  · next t ht => exact Or.inl ⟨(Option.some.inj h).symm, by rw [ht]; rfl⟩
  · split at h
    · next hc => exact Or.inr ⟨(Option.some.inj h).symm, hc.2⟩
    · cases h

theorem symlinkT_eq {b : Nat} {k : Key} {tgt : Path} {st st' : St}
    (h : symlinkT b k tgt st = some st') :
    st' = insertK st b k (.symlink tgt) ∧ b < st.maps.length := by
  unfold symlinkT at h
  split at h
  · cases h
  · split at h
    · next hc => exact ⟨(Option.some.inj h).symm, hc.2⟩
    · cases h

theorem mknodT_eq {b : Nat} {k : Key} {t : FType} {st st' : St}
    (h : mknodT b k t st = some st') :
    st' = insertK st b k t ∧ b < st.maps.length := by
  unfold mknodT at h
  split at h
  · cases h
  · split at h
    · next hc => exact ⟨(Option.some.inj h).symm, hc.2⟩
    · cases h

end Unionfs

namespace Unionfs

theorem do_create_pres (p : Path) (ro rw : Nat) (st : St) :
    ((do_create p ro rw st).2.1).cow_enabled = st.cow_enabled ∧
    ((do_create p ro rw st).2.1).maps.length = st.maps.length := by
  unfold do_create
  split
  · exact ⟨rfl, rfl⟩
  · split
    · split
      · next st1 heq =>
        rw [(mkdirT_eq heq).1]
        exact ⟨insertK_cow .., insertK_len ..⟩
      · exact ⟨rfl, rfl⟩
    · split
      · split
        · next st1 heq =>
          rw [(mkdirT_eq heq).1]
          exact ⟨insertK_cow .., insertK_len ..⟩
        · exact ⟨rfl, rfl⟩
      · exact ⟨rfl, rfl⟩

theorem do_create_mono {b : Nat} {k : Key} (p : Path) (ro rw : Nat) (st : St)
    (h : (statT b k st).isSome) : (statT b k (do_create p ro rw st).2.1).isSome := by
  unfold do_create
  split
  · exact h
  · split
    · split
      · next st1 heq =>
        rw [(mkdirT_eq heq).1]
        exact statT_insertK_isSome h
      · exact h
    · split
      · split
        · next st1 heq =>
          rw [(mkdirT_eq heq).1]
          exact statT_insertK_isSome h
        · exact h
      · exact h

theorem do_create_statT_ne (p : Path) (ro rw : Nat) (st : St) (b : Nat) {k : Key}
    (hk : k ≠ comps p) : statT b k (do_create p ro rw st).2.1 = statT b k st := by
  unfold do_create
  split
  · rfl
  · split
    · split
      · next st1 heq =>
        rw [(mkdirT_eq heq).1]
        exact statT_insertK_ne b hk
      · rfl
    · split
      · split
        · next st1 heq =>
          rw [(mkdirT_eq heq).1]
          exact statT_insertK_ne b hk
        · rfl
      · rfl

theorem do_create_post (p : Path) (ro rw : Nat) (st : St)
    (h : (do_create p ro rw st).1 = 0) :
    (statT rw (comps p) (do_create p ro rw st).2.1).isSome := by
  by_cases h1 : (statT rw (comps p) st).isSome
  · simp only [do_create, h1, if_true]
  · by_cases h2 : ro = rw
    · rcases heq : mkdirT rw (comps p) st with _ | st1
      · simp only [do_create, h1, if_false, h2, if_true, heq] at h
        simp at h
      · simp only [do_create, h1, if_false, h2, if_true, heq]
        rw [(mkdirT_eq heq).1]
        exact statT_insertK_self (mkdirT_eq heq).2.2
    · by_cases h3 : (statT ro (comps p) st).isSome
      · rcases heq : mkdirT rw (comps p) st with _ | st1
        · simp only [do_create, h1, if_false, h2, if_false, h3, if_true, heq] at h
          simp at h
        · simp only [do_create, h1, if_false, h2, if_false, h3, if_true, heq]
          rw [(mkdirT_eq heq).1]
          exact statT_insertK_self (mkdirT_eq heq).2.2
      · simp only [do_create, h1, if_false, h2, if_false, h3] at h
        simp at h

theorem do_create_meta (p : Path) (ro rw : Nat) (st : St) :
    ((do_create p ro rw st).2.2).all Ev.isMeta = true := by
  unfold do_create
  split
  · rfl
  · split
    · split <;> rfl
    · split
      · split <;> rfl
      · rfl

end Unionfs

namespace Unionfs

theorem pcWalk_pres : ∀ (l : List Path) (ro rw : Nat) (st : St),
    ((pcWalk l ro rw st).2.1).cow_enabled = st.cow_enabled ∧
    ((pcWalk l ro rw st).2.1).maps.length = st.maps.length := by
  intro l
  induction l with
  | nil => intro ro rw st; exact ⟨rfl, rfl⟩
  | cons q qs ih =>
    intro ro rw st
    simp only [pcWalk]
    split
    · obtain ⟨h1, h2⟩ := ih ro rw (do_create q ro rw st).2.1
      obtain ⟨g1, g2⟩ := do_create_pres q ro rw st
      exact ⟨h1.trans g1, h2.trans g2⟩
    · exact do_create_pres q ro rw st

theorem pcWalk_mono : ∀ (l : List Path) (ro rw : Nat) (st : St) {b : Nat} {k : Key},
    (statT b k st).isSome → (statT b k (pcWalk l ro rw st).2.1).isSome := by
  intro l
  induction l with
  | nil => intro ro rw st b k h; exact h
  | cons q qs ih =>
    intro ro rw st b k h
    simp only [pcWalk]
    split
    · exact ih ro rw _ (do_create_mono q ro rw st h)
    · exact do_create_mono q ro rw st h

theorem pcWalk_statT_ne : ∀ (l : List Path) (ro rw : Nat) (st : St) (b : Nat) {k : Key},
    (∀ q ∈ l, k ≠ comps q) →
    statT b k (pcWalk l ro rw st).2.1 = statT b k st := by
  intro l
  induction l with
  | nil => intro ro rw st b k _; rfl
  | cons q qs ih =>
    intro ro rw st b k hk
    simp only [pcWalk]
    split
    · rw [ih ro rw _ b (fun q' hq' => hk q' (List.mem_cons_of_mem _ hq'))]
      exact do_create_statT_ne q ro rw st b (hk q (by simp))
    · exact do_create_statT_ne q ro rw st b (hk q (by simp))

theorem pcWalk_post : ∀ (l : List Path) (ro rw : Nat) (st : St),
    (pcWalk l ro rw st).1 = 0 →
    ∀ q ∈ l, (statT rw (comps q) (pcWalk l ro rw st).2.1).isSome := by
  intro l
  induction l with
  | nil => intro ro rw st _ q hq; cases hq
  | cons q0 qs ih =>
    intro ro rw st hz q hq
    by_cases ht : (do_create q0 ro rw st).1 = 0
    · simp only [pcWalk, ht, if_true] at hz ⊢
      rcases List.mem_cons.mp hq with rfl | hq'
      · exact pcWalk_mono qs ro rw _ (do_create_post q ro rw st ht)
      · exact ih ro rw _ hz q hq'
    · simp only [pcWalk, ht, if_false] at hz

theorem pcWalk_meta : ∀ (l : List Path) (ro rw : Nat) (st : St),
    ((pcWalk l ro rw st).2.2).all Ev.isMeta = true := by
  intro l
  induction l with
  | nil => intro ro rw st; rfl
  | cons q qs ih =>
    intro ro rw st
    simp only [pcWalk]
    split
    · simp only [List.all_append]
      rw [do_create_meta, ih]
      rfl
    · exact do_create_meta q ro rw st

theorem path_create_pres (p : Path) (ro rw : Nat) (st : St) :
    ((path_create p ro rw st).2.1).cow_enabled = st.cow_enabled ∧
    ((path_create p ro rw st).2.1).maps.length = st.maps.length := by
  unfold path_create
  split
  · exact ⟨rfl, rfl⟩
  · split
    · exact ⟨rfl, rfl⟩
    · exact pcWalk_pres (walkPrefixes p) ro rw st

theorem path_create_statT_ne (p : Path) (ro rw : Nat) (st : St) (b : Nat) {k : Key}
    (hk : ∀ q ∈ walkPrefixes p, k ≠ comps q) :
    statT b k (path_create p ro rw st).2.1 = statT b k st := by
  unfold path_create
  split
  · rfl
  · split
    · rfl
    · exact pcWalk_statT_ne (walkPrefixes p) ro rw st b hk

theorem path_create_meta (p : Path) (ro rw : Nat) (st : St) :
    ((path_create p ro rw st).2.2).all Ev.isMeta = true := by
  unfold path_create
  split
  · rfl
  · split
    · rfl
    · simp only [List.all_cons]
      rw [pcWalk_meta]
      rfl

end Unionfs

namespace Unionfs

theorem path_create_cow_off {p : Path} {ro rw : Nat} {st : St}
    (hc : st.cow_enabled = false) : path_create p ro rw st = (0, st, []) := by
  simp [path_create, hc]

theorem path_create_hit {p : Path} {ro rw : Nat} {st : St}
    (hc : st.cow_enabled = true) (h1 : (statT rw (comps p) st).isSome) :
    path_create p ro rw st = (0, st, [Ev.statE rw p]) := by
  simp [path_create, hc, h1]

theorem path_create_miss {p : Path} {ro rw : Nat} {st : St}
    (hc : st.cow_enabled = true) (h1 : ¬(statT rw (comps p) st).isSome) :
    path_create p ro rw st =
      ((pcWalk (walkPrefixes p) ro rw st).1,
       (pcWalk (walkPrefixes p) ro rw st).2.1,
       Ev.statE rw p :: (pcWalk (walkPrefixes p) ro rw st).2.2) := by
  simp [path_create, hc, h1]

/-- Concrete state for the C7 witness: two branches, the ro branch 0
holding `/a/b`, the rw branch 1 empty. -/
def stC7 : St :=
  ⟨true, 2, [[([['a']], FType.dir), ([['a'], ['b']], FType.dir)], []]⟩

/-- C7: `path_create` (the spec's `create_path_chain`) is idempotent:
once an invocation has succeeded, a second invocation with the same
arguments returns success and performs no mkdir (its trace is at most the
initial existence probe). -/
theorem path_create_idempotent (p : Path) (ro rw : Nat) (st : St)
    (h : (path_create p ro rw st).1 = 0) :
    (path_create p ro rw (path_create p ro rw st).2.1).1 = 0 ∧
    ((path_create p ro rw (path_create p ro rw st).2.1).2.2).all (fun e => !e.isMkdir)
      = true := by
  cases hcow : st.cow_enabled with
  | false =>
    simp [path_create_cow_off hcow]
  | true =>
    by_cases h1 : (statT rw (comps p) st).isSome
    · rw [@path_create_hit p ro rw st hcow h1, @path_create_hit p ro rw st hcow h1]
      exact ⟨rfl, rfl⟩
    · have hmiss := @path_create_miss p ro rw st hcow h1
      have hz : (pcWalk (walkPrefixes p) ro rw st).1 = 0 := by
        rw [hmiss] at h
        exact h
      have hst1 : (path_create p ro rw st).2.1 = (pcWalk (walkPrefixes p) ro rw st).2.1 := by
        rw [hmiss]
      obtain ⟨q, hq, hcq⟩ := walkPrefixes_covers p
      have hsome : (statT rw (comps p) (pcWalk (walkPrefixes p) ro rw st).2.1).isSome := by
        rw [← hcq]
        exact pcWalk_post (walkPrefixes p) ro rw st hz q hq
      have hcow1 : ((pcWalk (walkPrefixes p) ro rw st).2.1).cow_enabled = true :=
        (pcWalk_pres (walkPrefixes p) ro rw st).1.trans hcow
      rw [hst1, path_create_hit hcow1 hsome]
      exact ⟨rfl, rfl⟩

theorem path_create_idempotent_witness :
    (path_create (mkPath [['a'], ['b']]) 0 1 stC7).1 = 0 ∧
    (path_create (mkPath [['a'], ['b']]) 0 1
        (path_create (mkPath [['a'], ['b']]) 0 1 stC7).2.1).1 = 0 ∧
    ((path_create (mkPath [['a'], ['b']]) 0 1
        (path_create (mkPath [['a'], ['b']]) 0 1 stC7).2.1).2.2).all
      (fun e => !e.isMkdir) = true :=
  ⟨by decide,
   (path_create_idempotent (mkPath [['a'], ['b']]) 0 1 stC7 (by decide)).1,
   (path_create_idempotent (mkPath [['a'], ['b']]) 0 1 stC7 (by decide)).2⟩

end Unionfs

namespace Unionfs

/-! ### COW-disabled behaviour (C1) and hide/is-hidden coupling (C5) -/

/-- COW disabled, one empty branch. -/
def stC1 : St := ⟨false, 1, [[]]⟩

/-- C1 counterexample: with COW disabled on an empty rw branch,
`hide_file("/f", 0)` is not a no-op returning success: only the
parent-chain creation short-circuits on `cow_enabled`, the whiteout open
is still attempted (I/O happens) and fails with -1 because the metadata
directory was never created. -/
theorem hide_file_cow_disabled_not_noop :
    stC1.cow_enabled = false ∧
    (hide_file "/f".toList 0 stC1).1 = -1 ∧
    (hide_file "/f".toList 0 stC1).2.2 ≠ [] := by
  refine ⟨rfl, ?_, ?_⟩ <;> decide

/-- C1 amended: with COW disabled, `path_hidden` answers false without
performing any I/O; `hide_file`, however, is not a no-op — it skips only
the parent-chain creation, still attempts the whiteout open, and fails
(-1) on a branch without the metadata directory. -/
theorem cow_disabled_path_hidden_noop :
    (∀ (st : St) (p : Path) (b : Nat), st.cow_enabled = false →
        path_hidden p b st = false ∧ (pathHiddenE p b st).2 = []) ∧
    ((hide_file "/f".toList 0 stC1).1 = -1 ∧ (hide_file "/f".toList 0 stC1).2.2 ≠ []) := by
  constructor
  · intro st p b hc
    constructor
    · simp [path_hidden, pathHiddenE, hc]
    · simp [pathHiddenE, hc]
  · exact ⟨by decide, by decide⟩

theorem cow_disabled_path_hidden_noop_witness :
    stC1.cow_enabled = false ∧
    path_hidden "/x".toList 0 stC1 = false ∧ (pathHiddenE "/x".toList 0 stC1).2 = [] :=
  ⟨rfl, (cow_disabled_path_hidden_noop.1 stC1 "/x".toList 0 rfl).1,
    (cow_disabled_path_hidden_noop.1 stC1 "/x".toList 0 rfl).2⟩

/-- COW disabled, but the metadata directory exists on the branch. -/
def stC5x : St := ⟨false, 1, [[([".unionfs".toList], FType.dir)]]⟩

/-- C5 counterexample: `hide_file("/f", 0)` succeeds (the marker is
created — `do_create_whiteout` never consults `cow_enabled`), yet
`is_hidden`/`path_hidden` answer false afterwards because the queries
short-circuit on the disabled COW mode; the claim fails as stated. -/
theorem hide_file_succeeds_but_not_hidden :
    (hide_file "/f".toList 0 stC5x).1 = 0 ∧
    filedir_hidden "/f".toList 0 (hide_file "/f".toList 0 stC5x).2.1 = false ∧
    path_hidden "/f".toList 0 (hide_file "/f".toList 0 stC5x).2.1 = false := by
  refine ⟨?_, ?_, ?_⟩ <;> decide

end Unionfs

namespace Unionfs

theorem openCreatT_post {b : Nat} {k : Key} {st st' : St}
    (h : openCreatT b k st = some st') : (statT b k st').isSome := by
  rcases openCreatT_eq h with ⟨rfl, hs⟩ | ⟨rfl, hb⟩
  · exact hs
  · exact statT_insertK_self hb

theorem openCreatT_cow {b : Nat} {k : Key} {st st' : St}
    (h : openCreatT b k st = some st') : st'.cow_enabled = st.cow_enabled := by
  rcases openCreatT_eq h with ⟨rfl, _⟩ | ⟨rfl, _⟩ <;> rfl

theorem path_create_cutlast_pres (p : Path) (ro rw : Nat) (st : St) :
    ((path_create_cutlast p ro rw st).2.1).cow_enabled = st.cow_enabled ∧
    ((path_create_cutlast p ro rw st).2.1).maps.length = st.maps.length :=
  path_create_pres (u_dirname p) ro rw st

/-- Unfolding of `do_create_whiteout` for the file flavour (pure
let-expansion of the definition). -/
theorem do_create_whiteout_file_eq (p : Path) (b : Nat) (st : St) :
    do_create_whiteout p b .WHITEOUT_FILE st =
      if (build_path (PATHLEN_MAX : Int) [metadirS, p]).1 ≠ 0 then (-1, st, [])
      else
        match openCreatT b
            (comps ((build_path (PATHLEN_MAX : Int) [metadirS, p]).2 ++ hidetagS))
            (path_create_cutlast (build_path (PATHLEN_MAX : Int) [metadirS, p]).2
              b b st).2.1 with
        | some st2 =>
          (0, st2,
           (path_create_cutlast (build_path (PATHLEN_MAX : Int) [metadirS, p]).2
             b b st).2.2
             ++ [Ev.openE b ((build_path (PATHLEN_MAX : Int) [metadirS, p]).2
                   ++ hidetagS) true])
        | none =>
          (-1,
           (path_create_cutlast (build_path (PATHLEN_MAX : Int) [metadirS, p]).2
             b b st).2.1,
           (path_create_cutlast (build_path (PATHLEN_MAX : Int) [metadirS, p]).2
             b b st).2.2
             ++ [Ev.openE b ((build_path (PATHLEN_MAX : Int) [metadirS, p]).2
                   ++ hidetagS) true]) := rfl

theorem hide_file_eq (p : Path) (b : Nat) (st : St) :
    hide_file p b st = do_create_whiteout p b .WHITEOUT_FILE st := rfl

/-- C5 amended: with COW enabled, after a successful `hide_file(path, B)`
(and no intervening `remove_hidden`), `is_hidden(path, B)`
(`filedir_hidden`) is true and `path_hidden(child, B)` is true for every
child having `path` as a path-component prefix. -/
theorem hide_file_then_hidden (st : St) (cs ds : List Comp) (b : Nat)
    (hcow : st.cow_enabled = true) (hcs : cs ≠ [])
    (hwf : ∀ c ∈ cs, WfComp c) (hwfd : ∀ c ∈ ds, WfComp c)
    (hok : (hide_file (mkPath cs) b st).1 = 0) :
    filedir_hidden (mkPath cs) b (hide_file (mkPath cs) b st).2.1 = true ∧
    path_hidden (mkPath (cs ++ ds)) b (hide_file (mkPath cs) b st).2.1 = true := by
  rw [hide_file_eq, do_create_whiteout_file_eq] at hok
  by_cases hb : (build_path (PATHLEN_MAX : Int) [metadirS, mkPath cs]).1 ≠ 0
  · rw [if_pos hb] at hok
    have hok' : (-1 : Int) = 0 := hok
    exact absurd hok' (by decide)
  · push_neg at hb
    have hB : build_path (PATHLEN_MAX : Int) [metadirS, mkPath cs]
        = (0, metadirS ++ mkPath cs) := by
      obtain ⟨hiff, himpl⟩ := goVB_spec [metadirS, mkPath cs]
        ((PATHLEN_MAX : Int) - List.length ([] : Path)) [] (by simp)
      have hlt : ((([metadirS, mkPath cs] : List Path).map List.length).sum : Int)
          < (PATHLEN_MAX : Int) - List.length ([] : Path) := by
        by_contra hh
        push_neg at hh
        have hE := hiff.mpr hh
        rw [build_path, va_build_path] at hb
        rw [hE] at hb
        have hb' : (-ENAMETOOLONG : Int) = 0 := hb
        rw [ENAMETOOLONG] at hb'
        exact absurd hb' (by decide)
      have hgo := himpl hlt
      rw [build_path, va_build_path, hgo]
      have hfl : (([metadirS, mkPath cs] : List Path).flatten) = metadirS ++ mkPath cs := by
        simp
      rw [hfl]
      simp
    have hne1 : ¬((build_path (PATHLEN_MAX : Int) [metadirS, mkPath cs]).1 ≠ 0) := by
      rw [hB]
      exact fun hh => hh rfl
    rw [if_neg hne1] at hok
    rcases hoc : openCreatT b
        (comps ((build_path (PATHLEN_MAX : Int) [metadirS, mkPath cs]).2 ++ hidetagS))
        (path_create_cutlast
          (build_path (PATHLEN_MAX : Int) [metadirS, mkPath cs]).2 b b st).2.1
      with _ | st2
    · rw [hoc] at hok
      have hok' : (-1 : Int) = 0 := hok
      exact absurd hok' (by decide)
    · have hst' : (hide_file (mkPath cs) b st).2.1 = st2 := by
        rw [hide_file_eq, do_create_whiteout_file_eq, if_neg hne1, hoc]
      rw [hB] at hoc
      have hsome := openCreatT_post hoc
      have hcow2 : st2.cow_enabled = true := by
        rw [openCreatT_cow hoc,
          (path_create_cutlast_pres (metadirS ++ mkPath cs) b b st).1]
        exact hcow
      have hmeta : metaStr (mkPath cs) = metadirS ++ mkPath cs ++ hidetagS := rfl
      have hfd : filedir_hidden (mkPath cs) b st2 = true := by
        rw [filedir_hidden, hcow2, hmeta, Bool.true_and]
        exact hsome
      refine ⟨by rw [hst']; exact hfd, ?_⟩
      rw [hst', path_hidden_any,
        walkPrefixes_mkPath (cs ++ ds) (by simp [hcs])
          (by intro c hc; rcases List.mem_append.mp hc with h | h
              exacts [hwf c h, hwfd c h]),
        hcow2, Bool.true_and]
      apply List.any_eq_true.mpr
      refine ⟨mkPath ((cs ++ ds).take (cs.length - 1 + 1)), ?_, ?_⟩
      · apply List.mem_map.mpr
        refine ⟨cs.length - 1, List.mem_range.mpr ?_, rfl⟩
        have h1 : 0 < cs.length := List.length_pos.mpr hcs
        have h2 : cs.length ≤ (cs ++ ds).length := by simp
        omega
      · have h1 : 0 < cs.length := List.length_pos.mpr hcs
        have h3 : cs.length - 1 + 1 = cs.length := by omega
        rw [h3, List.take_left]
        exact hfd

end Unionfs

namespace Unionfs

theorem hide_file_then_hidden_witness :
    ((⟨true, 1, [[]]⟩ : St).cow_enabled = true ∧
      (hide_file (mkPath [['a']]) 0 ⟨true, 1, [[]]⟩).1 = 0) ∧
    filedir_hidden (mkPath [['a']]) 0 (hide_file (mkPath [['a']]) 0 ⟨true, 1, [[]]⟩).2.1
      = true ∧
    path_hidden (mkPath [['a'], ['b']]) 0
      (hide_file (mkPath [['a']]) 0 ⟨true, 1, [[]]⟩).2.1 = true :=
  ⟨⟨rfl, by decide⟩,
   (hide_file_then_hidden ⟨true, 1, [[]]⟩ [['a']] [['b']] 0 rfl (by decide) (by decide)
      (by decide) (by decide)).1,
   (hide_file_then_hidden ⟨true, 1, [[]]⟩ [['a']] [['b']] 0 rfl (by decide) (by decide)
      (by decide) (by decide)).2⟩

/-! ### cow_cp: pipeline continuation (C2) and socket refusal (C9) -/

theorem comps_cons_slash (x : Path) : comps ('/' :: x) = comps x := by
  rw [comps, comps, rawComps_cons_slash]

theorem comps_joinRest : ∀ (cs : List Comp), cs ≠ [] → (∀ c ∈ cs, WfComp c) →
    comps (joinRest cs) = cs := by
  intro cs
  induction cs with
  | nil => intro h; exact absurd rfl h
  | cons c cs ih =>
    intro _ hwf
    cases cs with
    | nil => exact comps_wfcomp (hwf c (by simp))
    | cons d cs' =>
      have h1 : joinRest (c :: d :: cs') = c ++ '/' :: joinRest (d :: cs') := rfl
      rw [h1, comps_append_slash, comps_wfcomp (hwf c (by simp)),
        ih (by simp) (fun x hx => hwf x (by simp [hx]))]
      rfl

theorem comps_mkPath (cs : List Comp) (hcs : cs ≠ []) (hwf : ∀ c ∈ cs, WfComp c) :
    comps (mkPath cs) = cs := by
  rw [mkPath, comps_cons_slash, comps_joinRest cs hcs hwf]

theorem joinRest_append_last : ∀ (init : List Comp) (d : Comp), init ≠ [] →
    joinRest (init ++ [d]) = joinRest init ++ '/' :: d := by
  intro init
  induction init with
  | nil => intro d h; exact absurd rfl h
  | cons c cs ih =>
    intro d _
    cases cs with
    | nil => rfl
    | cons e cs' =>
      have h1 : joinRest ((c :: e :: cs') ++ [d]) = c ++ '/' :: joinRest ((e :: cs') ++ [d]) :=
        rfl
      rw [h1, ih d (by simp)]
      simp [joinRest]

theorem u_dirname_mkPath_single (c : Comp) (hc : WfComp c) :
    u_dirname (mkPath [c]) = [] := by
  have h1 : mkPath [c] = '/' :: c := rfl
  have hs : List.dropWhile notSl (('/' :: c).reverse) = ['/'] := by
    rw [List.reverse_cons]
    rw [dropWhile_all_append ['/']
      (fun x hx => by
        have : x ≠ '/' := fun he => hc.2.1 (by
          have := List.mem_reverse.mp hx
          rwa [he] at this)
        simpa [notSl] using this)]
    rw [List.dropWhile_cons]
    simp [notSl]
  rw [h1]
  unfold u_dirname
  rw [hs]
  rfl

theorem u_dirname_mkPath (init : List Comp) (d : Comp) (hinit : init ≠ [])
    (hd : WfComp d) :
    u_dirname (mkPath (init ++ [d])) = mkPath init := by
  have h1 : mkPath (init ++ [d]) = '/' :: (joinRest init ++ '/' :: d) := by
    rw [mkPath, joinRest_append_last init d hinit]
  have h2 : ('/' :: (joinRest init ++ '/' :: d)).reverse
      = d.reverse ++ '/' :: ((joinRest init).reverse ++ ['/']) := by
    simp
  have hs : List.dropWhile notSl (('/' :: (joinRest init ++ '/' :: d)).reverse)
      = '/' :: ((joinRest init).reverse ++ ['/']) := by
    rw [h2]
    rw [dropWhile_all_append ('/' :: ((joinRest init).reverse ++ ['/']))
      (fun x hx => by
        have : x ≠ '/' := fun he => hd.2.1 (by
          have := List.mem_reverse.mp hx
          rwa [he] at this)
        simpa [notSl] using this)]
    rw [List.dropWhile_cons]
    simp [notSl]
  rw [h1]
  unfold u_dirname
  rw [hs]
  simp [mkPath]

end Unionfs

namespace Unionfs

theorem walkPrefixes_nil : walkPrefixes ([] : Path) = [[]] := rfl

/-- No prefix tested while materialising the dirname chain resolves to
the promoted path's own key (they are all strictly shorter). -/
theorem dirname_prefix_keys (cs : List Comp) (hcs : cs ≠ []) (hwf : ∀ c ∈ cs, WfComp c) :
    ∀ q ∈ walkPrefixes (u_dirname (mkPath cs)), cs ≠ comps q := by
  rcases List.eq_nil_or_concat cs with rfl | ⟨init, d, rfl⟩
  · exact absurd rfl hcs
  · simp only [List.concat_eq_append] at hcs hwf ⊢
    have hd : WfComp d := hwf d (by simp)
    cases init with
    | nil =>
      rw [List.nil_append]
      rw [u_dirname_mkPath_single d hd, walkPrefixes_nil]
      intro q hq
      rw [List.mem_singleton.mp hq]
      intro he
      simp [comps, rawComps] at he
    | cons i it =>
      rw [u_dirname_mkPath (i :: it) d (by simp) hd]
      intro q hq
      rw [walkPrefixes_mkPath (i :: it) (by simp)
        (fun c hc => hwf c (List.mem_append_left [d] hc))] at hq
      obtain ⟨k, hk, rfl⟩ := List.mem_map.mp hq
      have hkr := List.mem_range.mp hk
      have hne : (i :: it).take (k + 1) ≠ [] := by
        simp [List.take_succ_cons]
      rw [comps_mkPath _ hne
        (fun c hc => hwf c (List.mem_append_left _ (List.take_subset _ _ hc)))]
      intro he
      have hlen := congrArg List.length he
      simp only [List.length_append, List.length_take] at hlen
      simp at hlen
      omega

/-- Concrete state for the C2 counterexample and witness: COW on; the ro
branch 0 holds `/a/b/f`; the rw branch 1 holds a regular file `a` where
the directory chain would have to be created. -/
def stC2 : St := ⟨true, 2,
  [[([['a']], FType.dir), ([['a'], ['b']], FType.dir), ([['a'], ['b'], ['f']], FType.file)],
   [([['a']], FType.file)]]⟩

/-- C2 counterexample: in `stC2`, parent materialisation of `/a/b/f`
fails (status 1), yet `cow_cp` does not stop there: its trace contains
the source lstat and the source open of the copy attempt after the failed
parent phase — the claim's "returns a non-zero status rather than
continuing the pipeline" is false, the pipeline continues. -/
theorem cow_cp_parent_failure_pipeline_continues :
    (path_create_cutlast "/a/b/f".toList 0 1 stC2).1 = 1 ∧
    Ev.lstatE 0 "/a/b/f".toList ∈ (cow_cp 1 "/a/b/f".toList 0 1 stC2).2.2 ∧
    Ev.openE 0 "/a/b/f".toList false ∈ (cow_cp 1 "/a/b/f".toList 0 1 stC2).2.2 := by
  refine ⟨?_, ?_, ?_⟩ <;> decide

/-- C2 amended: `cow_cp` discards the status of `path_create_cutlast`
and continues the pipeline: even when parent materialisation fails, the
source lstat (and then the type-dispatched copy attempt) is still
performed; whatever non-zero status reaches the caller comes from those
later steps. -/
theorem cow_cp_continues_after_parent_failure (fuel : Nat) (p : Path) (ro rw : Nat)
    (st : St) (h : (path_create_cutlast p ro rw st).1 ≠ 0) :
    Ev.lstatE ro p ∈ (cow_cp (fuel + 1) p ro rw st).2.2 := by
  rw [cow_cp]
  simp only [cowRun]
  exact List.mem_append_right _ (List.mem_cons_self _ _)

theorem cow_cp_continues_after_parent_failure_witness :
    (path_create_cutlast "/a/b/f".toList 0 1 stC2).1 ≠ 0 ∧
    Ev.lstatE 0 "/a/b/f".toList ∈ (cow_cp (0 + 1) "/a/b/f".toList 0 1 stC2).2.2 :=
  ⟨by decide, cow_cp_continues_after_parent_failure 0 "/a/b/f".toList 0 1 stC2 (by decide)⟩

/-- Concrete state for the C9 witness: the ro branch 0 holds a socket at
`/s`; the rw branch 1 is empty. -/
def stC9 : St := ⟨true, 2, [[([['s']], FType.sock)], []]⟩

/-- C9: when the source object is a socket, promotion refuses: `cow_cp`
returns the non-zero status 1, performs no copy operation of any kind
(every event in its trace is a metadata probe or mkdir — the parent-chain
phase and the source lstat), and does not create the destination path on
the rw branch. -/
theorem cow_cp_socket_refused (fuel : Nat) (cs : List Comp) (ro rw : Nat) (st : St)
    (hcs : cs ≠ []) (hwf : ∀ c ∈ cs, WfComp c)
    (hsock : statT ro cs st = some FType.sock) :
    (cow_cp (fuel + 1) (mkPath cs) ro rw st).1 = 1 ∧
    statT rw cs (cow_cp (fuel + 1) (mkPath cs) ro rw st).2.1 = statT rw cs st ∧
    ((cow_cp (fuel + 1) (mkPath cs) ro rw st).2.2).all Ev.isMeta = true := by
  have hk' := dirname_prefix_keys cs hcs hwf
  have hlst : statT ro cs (path_create_cutlast (mkPath cs) ro rw st).2.1
      = some FType.sock := by
    unfold path_create_cutlast
    rw [path_create_statT_ne _ ro rw st ro hk', hsock]
  have hcm : comps (mkPath cs) = cs := comps_mkPath cs hcs hwf
  have hrun : cow_cp (fuel + 1) (mkPath cs) ro rw st
      = (1, (path_create_cutlast (mkPath cs) ro rw st).2.1,
         (path_create_cutlast (mkPath cs) ro rw st).2.2
           ++ Ev.lstatE ro (mkPath cs) :: []) := by
    rw [cow_cp]
    simp only [cowRun, hcm, hlst]
  rw [hrun]
  refine ⟨rfl, ?_, ?_⟩
  · unfold path_create_cutlast
    exact path_create_statT_ne _ ro rw st rw hk'
  · simp only [List.all_append, List.all_cons, List.all_nil]
    unfold path_create_cutlast
    rw [path_create_meta]
    rfl

theorem cow_cp_socket_refused_witness :
    (([['s']] : List Comp) ≠ [] ∧ statT 0 [['s']] stC9 = some FType.sock) ∧
    (cow_cp (0 + 1) (mkPath [['s']]) 0 1 stC9).1 = 1 ∧
    statT 1 [['s']] (cow_cp (0 + 1) (mkPath [['s']]) 0 1 stC9).2.1
      = statT 1 [['s']] stC9 ∧
    ((cow_cp (0 + 1) (mkPath [['s']]) 0 1 stC9).2.2).all Ev.isMeta = true :=
  ⟨⟨by decide, by decide⟩,
   (cow_cp_socket_refused 0 [['s']] 0 1 stC9 (by decide) (by decide) (by decide)).1,
   (cow_cp_socket_refused 0 [['s']] 0 1 stC9 (by decide) (by decide) (by decide)).2.1,
   (cow_cp_socket_refused 0 [['s']] 0 1 stC9 (by decide) (by decide) (by decide)).2.2⟩

end Unionfs
